import Mathlib

/-!
# Verification of Vortex-Launcher `src/download_manager.py`

A shallow embedding of the download manager of the Vortex-Launcher
repository: the chunked downloader (`ChunkDownloader`), the version
resolver (`DownloadManager.get_available_versions`), archive-root
selection (`DownloadManager.extract_blender`) and the
`BlenderVersionInfo` serialisation round trip.  Pure computations are
translated to Lean functions; the stateful `ChunkDownloader` object is
modelled as an explicit state record with an event-application
function.
-/

namespace VortexLauncher

/-! ## Python's stable `list.sort`

Python's `list.sort` is a stable sort.  We model it as a stable
insertion sort over a boolean "less or equal" test: an element is
inserted before the first position whose element does not compare
below it, so elements that tie keep their original relative order,
exactly as CPython's timsort guarantees. -/

def pyInsert (le : α → α → Bool) (a : α) : List α → List α
  | [] => [a]
  | b :: l => if le a b then a :: b :: l else b :: pyInsert le a l

def pySort (le : α → α → Bool) : List α → List α
  | [] => []
  | a :: l => pyInsert le a (pySort le l)

theorem pyInsert_perm (le : α → α → Bool) (a : α) (l : List α) :
    (pyInsert le a l).Perm (a :: l) := by
  induction l with
  | nil => simp [pyInsert]
  | cons b l ih =>
    by_cases h : le a b
    · simp [pyInsert, h]
    · simp only [pyInsert, h, if_neg, Bool.false_eq_true, not_false_iff, ite_false]
      exact (List.Perm.cons b ih).trans (List.Perm.swap a b l)

theorem pySort_perm (le : α → α → Bool) (l : List α) :
    (pySort le l).Perm l := by
  induction l with
  | nil => simp [pySort]
  | cons a l ih =>
    exact (pyInsert_perm le a (pySort le l)).trans (List.Perm.cons a ih)

theorem mem_pyInsert (le : α → α → Bool) (a x : α) (l : List α) :
    x ∈ pyInsert le a l ↔ x = a ∨ x ∈ l :=
  ⟨fun h => by simpa using (pyInsert_perm le a l).mem_iff.mp h,
   fun h => (pyInsert_perm le a l).mem_iff.mpr (by simpa using h)⟩

theorem pyInsert_pairwise (le : α → α → Bool)
    (htot : ∀ a b, le a b = true ∨ le b a = true)
    (htrans : ∀ a b c, le a b = true → le b c = true → le a c = true)
    (a : α) (l : List α) (hl : l.Pairwise (fun x y => le x y = true)) :
    (pyInsert le a l).Pairwise (fun x y => le x y = true) := by
  induction l with
  | nil => simp [pyInsert]
  | cons b l ih =>
    rcases List.pairwise_cons.mp hl with ⟨hb, hl'⟩
    by_cases h : le a b
    · simp only [pyInsert, h, ite_true]
      refine List.pairwise_cons.mpr ⟨?_, hl⟩
      intro x hx
      rcases List.mem_cons.mp hx with rfl | hx
      · exact h
      · exact htrans a b x h (hb x hx)
    · simp only [pyInsert, h, Bool.false_eq_true, not_false_iff, ite_false]
      refine List.pairwise_cons.mpr ⟨?_, ih hl'⟩
      intro x hx
      rcases (mem_pyInsert le a x l).mp hx with hxa | hx
      · rcases htot a b with h' | h'
        · exact absurd h' h
        · rw [hxa]; exact h'
      · exact hb x hx

theorem pySort_pairwise (le : α → α → Bool)
    (htot : ∀ a b, le a b = true ∨ le b a = true)
    (htrans : ∀ a b c, le a b = true → le b c = true → le a c = true)
    (l : List α) :
    (pySort le l).Pairwise (fun x y => le x y = true) := by
  induction l with
  | nil => simp [pySort]
  | cons a l ih => exact pyInsert_pairwise le htot htrans a (pySort le l) ih

/-- Two lists of key-value pairs that are permutations of each other, both
weakly sorted by key, with no duplicate key on the left, are equal. -/
theorem perm_sorted_nodup_keys_eq {β : Type} :
    ∀ (l m : List (Nat × β)), l.Perm m →
      l.Pairwise (fun x y => x.1 ≤ y.1) → m.Pairwise (fun x y => x.1 ≤ y.1) →
      (l.map Prod.fst).Nodup → l = m := by
  intro l
  induction l with
  | nil => intro m hp _ _ _; exact (List.Perm.nil_eq hp).symm ▸ rfl
  | cons a l ih =>
    intro m hp hl hm hnd
    rcases m with _ | ⟨b, m⟩
    · exact absurd hp.symm (by simp)
    rcases List.pairwise_cons.mp hl with ⟨ha, hl'⟩
    rcases List.pairwise_cons.mp hm with ⟨hb, hm'⟩
    have hab : a = b := by
      have hamem : a ∈ b :: m := hp.mem_iff.mp (List.mem_cons_self a l)
      have hbmem : b ∈ a :: l := hp.symm.mem_iff.mp (List.mem_cons_self b m)
      rcases List.mem_cons.mp hamem with h1 | h1
      · exact h1
      rcases List.mem_cons.mp hbmem with h2 | h2
      · exact h2.symm
      have hba : b.1 ≤ a.1 := hb a h1
      have hab' : a.1 ≤ b.1 := ha b h2
      have hkey : a.1 = b.1 := le_antisymm hab' hba
      exfalso
      have : a.1 ∈ l.map Prod.fst := hkey ▸ List.mem_map_of_mem Prod.fst h2
      exact (List.nodup_cons.mp hnd).1 this
    subst hab
    have : l = m :=
      ih m hp.cons_inv hl' hm' (List.nodup_cons.mp hnd).2
    rw [this]

/-! ## `ChunkDownloader.start`: chunk ranges (claim C1)

From `download_manager.py` lines 211-221:

```python
chunk_size = self.total_size // self.chunk_count
for i in range(self.chunk_count):
    start = i * chunk_size
    end = (i + 1) * chunk_size - 1 if i < self.chunk_count - 1 else self.total_size - 1
```
-/

def chunk_size (totalSize chunkCount : Nat) : Nat := totalSize / chunkCount

def chunkStart (totalSize chunkCount i : Nat) : Int :=
  (i : Int) * chunk_size totalSize chunkCount

def chunkEnd (totalSize chunkCount i : Nat) : Int :=
  if i < chunkCount - 1 then ((i : Int) + 1) * chunk_size totalSize chunkCount - 1
  else (totalSize : Int) - 1

/-- Length of the byte range `[start, end]` of chunk `i`. -/
def chunkLen (totalSize chunkCount i : Nat) : Int :=
  chunkEnd totalSize chunkCount i - chunkStart totalSize chunkCount i + 1

/-- The list of `(start, end)` ranges built by the loop in
`ChunkDownloader.start`. -/
def chunkRanges (totalSize chunkCount : Nat) : List (Int × Int) :=
  (List.range chunkCount).map
    (fun i => (chunkStart totalSize chunkCount i, chunkEnd totalSize chunkCount i))

/-- C1: for every `totalSize` and every `chunkCount ≥ 1`, the chunk ranges
computed by `ChunkDownloader.start` (with `chunkSize = totalSize / chunkCount`
rounded down, chunk `i` covering `[i*chunkSize, (i+1)*chunkSize-1]` and the
last chunk extending to `totalSize-1`) are contiguous, non-overlapping, and
their lengths sum exactly to `totalSize`. -/
theorem chunk_ranges_partition (totalSize chunkCount : Nat) (h : 1 ≤ chunkCount) :
    (∀ i, i + 1 < chunkCount →
       chunkStart totalSize chunkCount (i + 1) = chunkEnd totalSize chunkCount i + 1) ∧
    (∀ i j, i < j → j < chunkCount →
       chunkEnd totalSize chunkCount i < chunkStart totalSize chunkCount j) ∧
    (∑ i ∈ Finset.range chunkCount, chunkLen totalSize chunkCount i) = totalSize := by
  obtain ⟨m, rfl⟩ : ∃ m, chunkCount = m + 1 :=
    ⟨chunkCount - 1, (Nat.succ_pred_eq_of_pos h).symm⟩
  set cs : Int := (chunk_size totalSize (m + 1) : Int) with hcs
  have hcs0 : (0 : Int) ≤ cs := by
    rw [hcs]; exact_mod_cast Nat.zero_le _
  refine ⟨?_, ?_, ?_⟩
  · intro i hi
    have him : i < m + 1 - 1 := by omega
    simp only [chunkStart, chunkEnd, if_pos him, ← hcs]
    push_cast
    ring
  · intro i j hij hj
    have him : i < m + 1 - 1 := by omega
    simp only [chunkStart, chunkEnd, if_pos him, ← hcs]
    have hle : ((i : Int) + 1) * cs ≤ (j : Int) * cs := by
      apply mul_le_mul_of_nonneg_right _ hcs0
      exact_mod_cast Nat.succ_le_of_lt hij
    linarith
  · rw [Finset.sum_range_succ]
    have hlast : chunkLen totalSize (m + 1) m = (totalSize : Int) - (m : Int) * cs := by
      simp only [chunkLen, chunkEnd, chunkStart, lt_irrefl,
        Nat.add_sub_cancel, if_false, ← hcs]
      ring
    have hother : ∀ i ∈ Finset.range m, chunkLen totalSize (m + 1) i = cs := by
      intro i hi
      have him : i < m + 1 - 1 := by
        have := Finset.mem_range.mp hi; omega
      simp only [chunkLen, chunkEnd, chunkStart, if_pos him, ← hcs]
      ring
    rw [Finset.sum_congr rfl hother, hlast, Finset.sum_const, Finset.card_range,
      nsmul_eq_mul]
    ring

/-- C1 witness: `chunkCount = 4` is positive, the partition theorem applies to
`totalSize = 1000000`, and the concrete ranges match the specified scenario. -/
theorem chunk_ranges_partition_witness :
    (1 ≤ 4 ∧
      ((∀ i, i + 1 < 4 →
          chunkStart 1000000 4 (i + 1) = chunkEnd 1000000 4 i + 1) ∧
       (∀ i j, i < j → j < 4 →
          chunkEnd 1000000 4 i < chunkStart 1000000 4 j) ∧
       (∑ i ∈ Finset.range 4, chunkLen 1000000 4 i) = 1000000)) ∧
    chunkRanges 1000000 4 =
      [(0, 249999), (250000, 499999), (500000, 749999), (750000, 999999)] :=
  ⟨⟨by decide, chunk_ranges_partition 1000000 4 (by decide)⟩, by decide⟩

/-! ## `ChunkDownloader._merge_chunks` (claim C2)

From `download_manager.py` lines 283-303:

```python
self.downloaded_chunks.sort(key=lambda x: x[0])
with open(self.save_path, 'wb') as outfile:
    for _, chunk_path in self.downloaded_chunks:
        with open(chunk_path, 'rb') as infile:
            outfile.write(infile.read())
```

A completed chunk is modelled as a pair `(chunk_id, bytes of its temp file)`;
bytes are `Nat`. -/

def merge_chunks (chunks : List (Nat × List Nat)) : List Nat :=
  (pySort (fun x y => decide (x.1 ≤ y.1)) chunks).foldl (fun out c => out ++ c.2) []

theorem foldl_append_chunks (l : List (Nat × List Nat)) :
    ∀ acc : List Nat,
      l.foldl (fun out c => out ++ c.2) acc = acc ++ (l.map Prod.snd).flatten := by
  induction l with
  | nil => intro acc; simp
  | cons c l ih => intro acc; simp [ih, List.append_assoc]

/-- C2: for every completed set of `N` chunks, whatever the order in which the
`(index, file)` pairs were appended to `downloaded_chunks`,
`_merge_chunks` concatenates the chunk files strictly in ascending index
order `0..N-1`. -/
theorem merge_chunks_ascending (N : Nat) (f : Nat → List Nat)
    (l : List (Nat × List Nat))
    (hperm : l.Perm ((List.range N).map (fun i => (i, f i)))) :
    merge_chunks l = ((List.range N).map f).flatten := by
  have hcanon_sorted :
      ((List.range N).map (fun i => (i, f i))).Pairwise
        (fun x y : Nat × List Nat => x.1 ≤ y.1) := by
    rw [List.pairwise_map]
    exact (List.pairwise_lt_range N).imp le_of_lt
  have hsperm : (pySort (fun x y => decide (x.1 ≤ y.1)) l).Perm
      ((List.range N).map (fun i => (i, f i))) :=
    (pySort_perm _ l).trans hperm
  have hsorted : (pySort (fun x y => decide (x.1 ≤ y.1)) l).Pairwise
      (fun x y : Nat × List Nat => x.1 ≤ y.1) := by
    have := pySort_pairwise (fun x y : Nat × List Nat => decide (x.1 ≤ y.1))
      (fun a b => by
        rcases le_total a.1 b.1 with h | h
        · exact Or.inl (by simpa using h)
        · exact Or.inr (by simpa using h))
      (fun a b c hab hbc => by
        simp only [decide_eq_true_eq] at *
        exact le_trans hab hbc) l
    exact this.imp (fun h => by simpa using h)
  have hnodup : ((pySort (fun x y => decide (x.1 ≤ y.1)) l).map Prod.fst).Nodup := by
    have hmapperm : ((pySort (fun x y => decide (x.1 ≤ y.1)) l).map Prod.fst).Perm
        (((List.range N).map (fun i => (i, f i))).map Prod.fst) := hsperm.map Prod.fst
    have : (((List.range N).map (fun i => (i, f i))).map Prod.fst) = List.range N := by
      rw [List.map_map]; exact List.map_id _
    rw [this] at hmapperm
    exact hmapperm.nodup_iff.mpr (List.nodup_range N)
  have heq : pySort (fun x y => decide (x.1 ≤ y.1)) l =
      (List.range N).map (fun i => (i, f i)) :=
    perm_sorted_nodup_keys_eq _ _ hsperm hsorted hcanon_sorted hnodup
  rw [merge_chunks, heq, foldl_append_chunks]
  rw [List.nil_append, List.map_map]
  rfl

/-- C2 witness: a completed set of three chunks appended out of order
(2, 0, 1) is a permutation of the canonical set, and merging yields the
chunks in ascending index order. -/
theorem merge_chunks_ascending_witness :
    (([((2 : Nat), [12]), (0, [10]), (1, [11])]).Perm
        ((List.range 3).map (fun i => (i, [i + 10]))) ∧
      merge_chunks [((2 : Nat), [12]), (0, [10]), (1, [11])] =
        ((List.range 3).map (fun i => [i + 10])).flatten) ∧
    merge_chunks [((2 : Nat), [12]), (0, [10]), (1, [11])] = [10, 11, 12] :=
  ⟨⟨by decide, merge_chunks_ascending 3 (fun i => [i + 10]) _ (by decide)⟩, by decide⟩

/-! ## `ChunkDownloader` as a state machine (claims C3, C4, C8)

The mutable state of a `ChunkDownloader` object (`download_manager.py`
lines 167-319) together with the filesystem artifacts it manages:

* `tempDirExists`  — whether `<save_path>.chunks/` exists on disk;
* `chunkFile i`    — bytes written so far to `<temp_dir>/chunk_<i>`;
* `destFile`       — contents of the destination file, if it was written;
* `errors`         — the error messages emitted on `error_signal`.

Events are the externally triggered entry points: `start` (with the result
of the HEAD size probe, `none` meaning the request raised), a worker
receiving a buffer, a worker's request raising, a worker thread finishing
(Qt `finished` → `_on_chunk_finished`), and `cancel`. -/

structure CDState where
  chunkCount : Nat
  totalSize : Int
  isCanceled : Bool
  downloadedChunks : List (Nat × Nat)
  downloadedSize : Nat
  chunkFile : Nat → List Nat
  tempDirExists : Bool
  destFile : Option (List Nat)
  errors : List String
  finishedEmitted : Bool

/-- The state right after `ChunkDownloader.__init__`. -/
def CDState.init (chunkCount : Nat) : CDState :=
  { chunkCount := chunkCount
    totalSize := 0
    isCanceled := false
    downloadedChunks := []
    downloadedSize := 0
    chunkFile := fun _ => []
    tempDirExists := false
    destFile := none
    errors := []
    finishedEmitted := false }

inductive CDEvent where
  | start (probedSize : Option Int)
  | recv (i : Nat) (data : List Nat)
  | workerError (i : Nat)
  | workerFinished (i : Nat)
  | cancel
deriving DecidableEq

/-- `ChunkDownloader._cleanup`: remove the temp directory. -/
def CDState.cleanup (s : CDState) : CDState := { s with tempDirExists := false }

/-- `ChunkDownloader._merge_chunks`: sort `downloaded_chunks` by chunk id,
concatenate the chunk files into the destination file, clean up, emit
`finished_signal`. -/
def CDState.merge (s : CDState) : CDState :=
  { s with
    destFile := some (merge_chunks (s.downloadedChunks.map (fun p => (p.1, s.chunkFile p.2))))
    tempDirExists := false
    finishedEmitted := true }

def CDState.applyEvent (s : CDState) : CDEvent → CDState
  | .start probedSize =>
    -- `start` first creates the temp directory, then probes the size.
    let s := { s with tempDirExists := true }
    match probedSize with
    | none =>
      -- the HEAD request raised: emit error, `_cleanup()`
      ({ s with errors := s.errors ++ ["start error"] }).cleanup
    | some sz =>
      if sz ≤ 0 then
        -- `if self.total_size <= 0: self.error_signal.emit(...); return`
        { s with errors := s.errors ++ ["no file size"] }
      else
        { s with totalSize := sz }
  | .recv i data =>
    -- body of the `iter_content` loop in `_download_chunk`
    if s.isCanceled then s
    else if data = [] then s
    else
      { s with
        chunkFile := fun j => if j = i then s.chunkFile j ++ data else s.chunkFile j
        downloadedSize := s.downloadedSize + data.length }
  | .workerError _ =>
    -- `except Exception as e: self.error_signal.emit(...)` — nothing else
    { s with errors := s.errors ++ ["chunk error"] }
  | .workerFinished i =>
    -- `_on_chunk_finished`
    if s.isCanceled then s
    else
      let s := { s with downloadedChunks := s.downloadedChunks ++ [(i, i)] }
      if s.downloadedChunks.length = s.chunkCount then s.merge else s
  | .cancel =>
    -- `cancel`: set the flag, terminate workers, `_cleanup()`
    ({ s with isCanceled := true }).cleanup

def CDState.run (s : CDState) (es : List CDEvent) : CDState :=
  es.foldl CDState.applyEvent s

theorem downloadedSize_step_mono (s : CDState) (e : CDEvent) :
    s.downloadedSize ≤ (s.applyEvent e).downloadedSize := by
  cases e with
  | start p =>
    cases p with
    | none => simp [CDState.applyEvent, CDState.cleanup]
    | some sz =>
      by_cases h : sz ≤ 0 <;> simp [CDState.applyEvent, h]
  | recv i data =>
    by_cases h1 : s.isCanceled = true
    · simp [CDState.applyEvent, h1]
    · by_cases h2 : data = [] <;>
        simp [CDState.applyEvent, h1, h2]
  | workerError i => simp [CDState.applyEvent]
  | workerFinished i =>
    by_cases h1 : s.isCanceled = true
    · simp [CDState.applyEvent, h1]
    · simp only [CDState.applyEvent, h1, Bool.false_eq_true, if_false]
      split <;> simp [CDState.merge]
  | cancel => simp [CDState.applyEvent, CDState.cleanup]

/-- C8: the aggregate downloaded-byte counter `downloaded_size` is
monotonically non-decreasing along every event sequence, and a worker
step adds exactly the received buffer's length when the task is active
and the buffer non-empty. -/
theorem downloadedSize_monotone (s : CDState) (es : List CDEvent) :
    (s.downloadedSize ≤ (s.run es).downloadedSize) ∧
    ∀ i data, (s.applyEvent (.recv i data)).downloadedSize =
      if s.isCanceled = true ∨ data = [] then s.downloadedSize
      else s.downloadedSize + data.length := by
  constructor
  · induction es generalizing s with
    | nil => simp [CDState.run]
    | cons e es ih =>
      exact le_trans (downloadedSize_step_mono s e) (ih (s.applyEvent e))
  · intro i data
    by_cases h1 : s.isCanceled = true
    · simp [CDState.applyEvent, h1]
    · by_cases h2 : data = [] <;> simp [CDState.applyEvent, h1, h2]

/-- C3 counterexample: with 4 chunks of one byte each, the worker for chunk
index 2 raises after chunks 0, 1, 3 were received in full.  The claim says
the task aborts with the other workers cancelled and no destination file;
in the code the failed worker's thread still finishes, `_on_chunk_finished`
counts it, and the chunks are merged into a 3-byte destination file while
the cancel flag was never set. -/
theorem chunk_failure_counterexample :
    (((CDState.init 4).run
        [.start (some 4), .recv 0 [10], .recv 1 [11], .recv 3 [13],
         .workerError 2, .workerFinished 0, .workerFinished 1,
         .workerFinished 3, .workerFinished 2]).destFile = some [10, 11, 13]) ∧
    (((CDState.init 4).run
        [.start (some 4), .recv 0 [10], .recv 1 [11], .recv 3 [13],
         .workerError 2, .workerFinished 0, .workerFinished 1,
         .workerFinished 3, .workerFinished 2]).isCanceled = false) ∧
    (((CDState.init 4).run
        [.start (some 4), .recv 0 [10], .recv 1 [11], .recv 3 [13],
         .workerError 2, .workerFinished 0, .workerFinished 1,
         .workerFinished 3, .workerFinished 2]).errors ≠ []) := by
  refine ⟨by decide, by decide, by decide⟩

/-- C3 (amended): a chunk worker failure only emits an error message — the
cancel flag is not set, the temp directory is not removed, the destination
and the completed-chunk list are untouched; and since the failed worker's
thread still finishes, the last `_on_chunk_finished` merges all chunk files
(including incomplete ones) into the destination file. -/
theorem chunk_failure_no_abort (s : CDState) (i j : Nat)
    (h1 : s.isCanceled = false)
    (h2 : s.downloadedChunks.length + 1 = s.chunkCount) :
    (s.applyEvent (.workerError i)).isCanceled = false ∧
    (s.applyEvent (.workerError i)).tempDirExists = s.tempDirExists ∧
    (s.applyEvent (.workerError i)).destFile = s.destFile ∧
    (s.applyEvent (.workerError i)).downloadedChunks = s.downloadedChunks ∧
    (s.applyEvent (.workerFinished j)).destFile =
      some (merge_chunks ((s.downloadedChunks ++ [(j, j)]).map
        (fun p => (p.1, s.chunkFile p.2)))) ∧
    (s.applyEvent (.workerFinished j)).finishedEmitted = true := by
  have hcond : (s.downloadedChunks ++ [(j, j)]).length = s.chunkCount := by
    simp [List.length_append, h2]
  refine ⟨by simp [CDState.applyEvent, h1], by simp [CDState.applyEvent],
    by simp [CDState.applyEvent], by simp [CDState.applyEvent], ?_, ?_⟩ <;>
    simp [CDState.applyEvent, h1, hcond, CDState.merge]

/-- C3 amended witness: the single-chunk downloader in its initial state. -/
theorem chunk_failure_no_abort_witness :
    ((CDState.init 1).isCanceled = false ∧
      (CDState.init 1).downloadedChunks.length + 1 = (CDState.init 1).chunkCount) ∧
    ((CDState.init 1).applyEvent (.workerError 0)).isCanceled = false ∧
    ((CDState.init 1).applyEvent (.workerError 0)).tempDirExists =
      (CDState.init 1).tempDirExists ∧
    ((CDState.init 1).applyEvent (.workerError 0)).destFile =
      (CDState.init 1).destFile ∧
    ((CDState.init 1).applyEvent (.workerError 0)).downloadedChunks =
      (CDState.init 1).downloadedChunks ∧
    ((CDState.init 1).applyEvent (.workerFinished 0)).destFile =
      some (merge_chunks (((CDState.init 1).downloadedChunks ++ [(0, 0)]).map
        (fun p : Nat × Nat => (p.1, (CDState.init 1).chunkFile p.2)))) ∧
    ((CDState.init 1).applyEvent (.workerFinished 0)).finishedEmitted = true :=
  ⟨⟨by decide, by decide⟩,
    chunk_failure_no_abort (CDState.init 1) 0 0 (by decide) (by decide)⟩

/-- C4 counterexample: when the HEAD probe reports `Content-Length` of 0
(size unavailable), `start` emits the error and returns without
`_cleanup()`: the freshly created temp directory is left on disk, contrary
to the claim that it is removed on every failure. -/
theorem temp_dir_left_counterexample :
    (((CDState.init 4).run [.start (some 0)]).tempDirExists = true) ∧
    (((CDState.init 4).run [.start (some 0)]).errors = ["no file size"]) ∧
    (((CDState.init 4).run [.start (some 0)]).destFile = none) := by
  refine ⟨by decide, by decide, by decide⟩

/-- C4 (amended): the temp directory is removed on completion (the merge
performed by the last `_on_chunk_finished`), on a `start` exception, and on
`cancel`; cancelling while no destination file exists leaves neither a
destination file nor a temp directory.  It is *not* removed on the
probed-size-unavailable failure path. -/
theorem temp_dir_cleanup (s : CDState) (j : Nat)
    (h1 : s.destFile = none) (h2 : s.isCanceled = false)
    (h3 : s.downloadedChunks.length + 1 = s.chunkCount) :
    (s.applyEvent .cancel).tempDirExists = false ∧
    (s.applyEvent .cancel).destFile = none ∧
    (s.applyEvent (.start none)).tempDirExists = false ∧
    (s.applyEvent (.workerFinished j)).tempDirExists = false := by
  have hcond : (s.downloadedChunks ++ [(j, j)]).length = s.chunkCount := by
    simp [List.length_append, h3]
  refine ⟨by simp [CDState.applyEvent, CDState.cleanup],
    by simp [CDState.applyEvent, CDState.cleanup, h1],
    by simp [CDState.applyEvent, CDState.cleanup],
    by simp [CDState.applyEvent, h2, hcond, CDState.merge]⟩

/-- C4 amended witness: the single-chunk downloader in its initial state. -/
theorem temp_dir_cleanup_witness :
    ((CDState.init 1).destFile = none ∧
      (CDState.init 1).isCanceled = false ∧
      (CDState.init 1).downloadedChunks.length + 1 = (CDState.init 1).chunkCount) ∧
    ((CDState.init 1).applyEvent .cancel).tempDirExists = false ∧
    ((CDState.init 1).applyEvent .cancel).destFile = none ∧
    ((CDState.init 1).applyEvent (.start none)).tempDirExists = false ∧
    ((CDState.init 1).applyEvent (.workerFinished 0)).tempDirExists = false :=
  ⟨⟨by decide, by decide, by decide⟩,
    temp_dir_cleanup (CDState.init 1) 0 (by decide) (by decide) (by decide)⟩

/-! ## `DownloadManager.get_available_versions` (claims C5, C6, C7)

From `download_manager.py` lines 699-774.  Descriptors are treated
opaquely (type `α`): the source only ever consults `version.version`,
modelled as a function `key : α → String`.  Python's insertion-ordered
`dict` is an association list. -/

/-- Python's `str.split(sep)` for a one-character separator, on the
character list of the string. -/
def splitOnChar (sep : Char) : List Char → List (List Char)
  | [] => [[]]
  | c :: rest =>
    let r := splitOnChar sep rest
    if c = sep then [] :: r
    else
      match r with
      | [] => [[c]]
      | g :: gs => (c :: g) :: gs

def digitsToNat (g : List Char) : Nat :=
  g.foldl (fun acc c => acc * 10 + (c.toNat - 48)) 0

/-- `int(n) if n.isdigit() else 0` for one dotted component. -/
def versionComponent (g : List Char) : Nat :=
  if g ≠ [] ∧ g.all (fun c => c.isDigit) then digitsToNat g else 0

/-- The sort key `[int(n) if n.isdigit() else 0 for n in v.version.split('.')]`. -/
def parseVersion (s : String) : List Nat :=
  (splitOnChar '.' s.data).map versionComponent

/-- Python's `<` on lists of ints: lexicographic, a strict prefix is smaller. -/
def listLt : List Nat → List Nat → Bool
  | _, [] => false
  | [], _ :: _ => true
  | a :: as, b :: bs => if a < b then true else if b < a then false else listLt as bs

theorem listLt_trans :
    ∀ a b c : List Nat, listLt a b = true → listLt b c = true → listLt a c = true := by
  intro a
  induction a with
  | nil =>
    intro b c hab hbc
    cases c with
    | nil => cases b <;> simp [listLt] at hbc
    | cons z zs => simp [listLt]
  | cons x xs ih =>
    intro b c hab hbc
    cases b with
    | nil => simp [listLt] at hab
    | cons y ys =>
      cases c with
      | nil => simp [listLt] at hbc
      | cons z zs =>
        simp only [listLt] at hab hbc ⊢
        by_cases hxy : x < y
        · by_cases hyz : y < z
          · simp [lt_trans hxy hyz]
          · by_cases hzy : z < y
            · simp [hyz, hzy] at hbc
            · have hyz' : y = z := le_antisymm (not_lt.mp hzy) (not_lt.mp hyz)
              simp [hyz' ▸ hxy]
        · by_cases hyx : y < x
          · simp [hxy, hyx] at hab
          · have hxy' : x = y := le_antisymm (not_lt.mp hyx) (not_lt.mp hxy)
            simp only [hxy, hyx, if_false] at hab
            by_cases hyz : y < z
            · simp [hxy' ▸ hyz]
            · by_cases hzy : z < y
              · simp [hyz, hzy] at hbc
              · have hyz' : y = z := le_antisymm (not_lt.mp hzy) (not_lt.mp hyz)
                simp only [hyz, hzy, if_false] at hbc
                have hxz : ¬ x < z := by rw [hxy', hyz']; exact lt_irrefl z
                have hzx : ¬ z < x := by rw [hxy', hyz']; exact lt_irrefl z
                simp [hxz, hzx, ih ys zs hab hbc]

theorem listLt_trichotomy :
    ∀ a b : List Nat, listLt a b = true ∨ listLt b a = true ∨ a = b := by
  intro a
  induction a with
  | nil =>
    intro b
    cases b with
    | nil => right; right; rfl
    | cons y ys => left; simp [listLt]
  | cons x xs ih =>
    intro b
    cases b with
    | nil => right; left; simp [listLt]
    | cons y ys =>
      rcases lt_trichotomy x y with h | h | h
      · left; simp [listLt, h]
      · subst h
        rcases ih ys with h' | h' | h'
        · left; simp [listLt, lt_irrefl, h']
        · right; left; simp [listLt, lt_irrefl, h']
        · right; right; rw [h']
      · right; left; simp [listLt, h, asymm h]

theorem listLt_irrefl : ∀ a : List Nat, listLt a a = false := by
  intro a
  induction a with
  | nil => rfl
  | cons x xs ih => simp [listLt, lt_irrefl, ih]

theorem listLt_asymm (a b : List Nat) (h : listLt a b = true) : listLt b a = false := by
  by_contra hc
  have hba : listLt b a = true := by
    cases hh : listLt b a
    · exact absurd hh hc
    · rfl
  have := listLt_trans a b a h hba
  rw [listLt_irrefl] at this
  exact Bool.false_ne_true this

section Resolver

variable {α : Type}

/-- `versions.sort(key=lambda v: [...], reverse=True)`: stable sort,
descending by the parsed version key. -/
def sortVersionsDesc (key : α → String) (l : List α) : List α :=
  pySort (fun x y => !(listLt (parseVersion (key x)) (parseVersion (key y)))) l

/-- The dedup dict build:
```python
unique_versions = {}
for version in all_versions:
    if version.version not in unique_versions:
        unique_versions[version.version] = version
```
-/
def uniqueVersions (key : α → String) (l : List α) : List (String × α) :=
  l.foldl
    (fun d v => if key v ∈ d.map Prod.fst then d else d ++ [(key v, v)]) []

/-- Python dict assignment `d[k] = v` on an insertion-ordered dict: an
existing key keeps its position and gets the new value, a new key is
appended. -/
def dictInsert (d : List (String × α)) (k : String) (v : α) : List (String × α) :=
  if k ∈ d.map Prod.fst then d.map (fun p => if p.1 = k then (k, v) else p)
  else d ++ [(k, v)]

/-- The strategy combination of `get_available_versions`: the direct
download page first; the mirror only when that yielded nothing (and the
mirror is enabled); the official site only when both yielded nothing. -/
def combinedVersions (direct mirror official : List α) (useMirror : Bool) : List α :=
  let a1 := direct
  let a2 := if useMirror && a1.isEmpty then a1 ++ mirror else a1
  if a2.isEmpty then a2 ++ official else a2

/-- `DownloadManager.get_available_versions`, returning the version list and
the updated `version_cache`.  Deduplicate keeping first occurrences, sort
descending, write the result into the cache, and if nothing was scraped
fall back to the cache contents. -/
def get_available_versions (key : α → String) (direct mirror official : List α)
    (useMirror : Bool) (cache : List (String × α)) :
    List α × List (String × α) :=
  let allVersions := combinedVersions direct mirror official useMirror
  let versions := sortVersionsDesc key ((uniqueVersions key allVersions).map Prod.snd)
  let cache2 := versions.foldl (fun d v => dictInsert d (key v) v) cache
  let result := if versions.isEmpty && !cache2.isEmpty then cache2.map Prod.snd
    else versions
  (result, cache2)

/-- C7: if every scraping strategy yields an empty result, resolution
returns exactly the full contents of the version cache, unmodified (the
cache itself is also left unchanged); with an empty cache the result is the
empty list.  The function is total, so no exception reaches the caller. -/
theorem resolver_empty_strategies (key : α → String) (useMirror : Bool)
    (cache : List (String × α)) :
    (get_available_versions key [] [] [] useMirror cache).1 = cache.map Prod.snd ∧
    (get_available_versions key [] [] [] useMirror cache).2 = cache := by
  have hcomb : combinedVersions ([] : List α) [] [] useMirror = [] := by
    cases useMirror <;> simp [combinedVersions]
  cases cache with
  | nil =>
    simp [get_available_versions, hcomb, uniqueVersions, sortVersionsDesc, pySort]
  | cons p cs =>
    simp [get_available_versions, hcomb, uniqueVersions, sortVersionsDesc, pySort]

theorem uniqueVersions_aux_nodup (key : α → String) :
    ∀ (l : List α) (d : List (String × α)), (d.map Prod.fst).Nodup →
      (((l.foldl (fun d v => if key v ∈ d.map Prod.fst then d
          else d ++ [(key v, v)]) d)).map Prod.fst).Nodup := by
  intro l
  induction l with
  | nil => intro d hd; simpa using hd
  | cons v l ih =>
    intro d hd
    simp only [List.foldl_cons]
    by_cases h : key v ∈ d.map Prod.fst
    · rw [if_pos h]; exact ih d hd
    · rw [if_neg h]
      apply ih
      rw [List.map_append]
      refine List.Nodup.append hd (by simp) ?_
      intro a ha hb
      simp only [List.map_cons, List.map_nil, List.mem_singleton] at hb
      exact h (hb ▸ ha)

theorem uniqueVersions_aux_mem (key : α → String) :
    ∀ (l : List α) (d : List (String × α)) (p : String × α),
      p ∈ l.foldl (fun d v => if key v ∈ d.map Prod.fst then d
          else d ++ [(key v, v)]) d →
      p ∈ d ∨ (p.1 = key p.2 ∧
        l.find? (fun x => key x == p.1) = some p.2 ∧ p.1 ∉ d.map Prod.fst) := by
  intro l
  induction l with
  | nil => intro d p hp; exact Or.inl (by simpa using hp)
  | cons v l ih =>
    intro d p hp
    simp only [List.foldl_cons] at hp
    by_cases h : key v ∈ d.map Prod.fst
    · rw [if_pos h] at hp
      rcases ih d p hp with hd | ⟨hk, hf, hnk⟩
      · exact Or.inl hd
      · refine Or.inr ⟨hk, ?_, hnk⟩
        have hne : (key v == p.1) = false := by
          refine beq_eq_false_iff_ne.mpr ?_
          intro he
          exact hnk (he ▸ h)
        rw [List.find?_cons_of_neg _ (by simp [hne])]
        exact hf
    · rw [if_neg h] at hp
      rcases ih (d ++ [(key v, v)]) p hp with hd | ⟨hk, hf, hnk⟩
      · rcases List.mem_append.mp hd with hd | hd
        · exact Or.inl hd
        · simp only [List.mem_singleton] at hd
          subst hd
          refine Or.inr ⟨rfl, ?_, h⟩
          exact List.find?_cons_of_pos _ (by simp)
      · have hnk' : p.1 ∉ d.map Prod.fst ∧ p.1 ≠ key v := by
          rw [List.map_append] at hnk
          simp only [List.mem_append, List.map_cons, List.map_nil,
            List.mem_singleton, not_or] at hnk
          exact hnk
        refine Or.inr ⟨hk, ?_, hnk'.1⟩
        rw [List.find?_cons_of_neg _ (by simp [beq_eq_false_iff_ne.mpr (Ne.symm hnk'.2)])]
        exact hf

/-- Every entry of the dedup dict stores its own key and is the first
descriptor with that key in the scraped list. -/
theorem uniqueVersions_first_wins (key : α → String) (l : List α)
    (p : String × α) (hp : p ∈ uniqueVersions key l) :
    p.1 = key p.2 ∧ l.find? (fun x => key x == p.1) = some p.2 := by
  rcases uniqueVersions_aux_mem key l [] p hp with hd | ⟨hk, hf, _⟩
  · simp at hd
  · exact ⟨hk, hf⟩

theorem uniqueVersions_nodup (key : α → String) (l : List α) :
    ((uniqueVersions key l).map Prod.fst).Nodup :=
  uniqueVersions_aux_nodup key l [] (by simp)

theorem uniqueVersions_ne_nil_aux (key : α → String) :
    ∀ (l : List α) (d : List (String × α)), d ≠ [] →
      l.foldl (fun d v => if key v ∈ d.map Prod.fst then d
        else d ++ [(key v, v)]) d ≠ [] := by
  intro l
  induction l with
  | nil => intro d hd; simpa using hd
  | cons v l ih =>
    intro d hd
    simp only [List.foldl_cons]
    by_cases h : key v ∈ d.map Prod.fst
    · rw [if_pos h]; exact ih d hd
    · rw [if_neg h]
      exact ih _ (by simp)

theorem uniqueVersions_ne_nil (key : α → String) (v : α) (l : List α) :
    uniqueVersions key (v :: l) ≠ [] := by
  unfold uniqueVersions
  simp only [List.foldl_cons, List.map_nil, List.not_mem_nil, if_neg, List.nil_append]
  exact uniqueVersions_ne_nil_aux key l [(key v, v)] (by simp)

theorem combinedVersions_of_direct_ne_nil (direct mirror official : List α)
    (useMirror : Bool) (h : direct ≠ []) :
    combinedVersions direct mirror official useMirror = direct := by
  have hie : direct.isEmpty = false := by
    cases direct with
    | nil => exact absurd rfl h
    | cons a l => rfl
  simp [combinedVersions, hie]

theorem resolver_result_of_ne_nil (key : α → String) (direct mirror official : List α)
    (useMirror : Bool) (cache : List (String × α))
    (h : sortVersionsDesc key ((uniqueVersions key
        (combinedVersions direct mirror official useMirror)).map Prod.snd) ≠ []) :
    (get_available_versions key direct mirror official useMirror cache).1 =
      sortVersionsDesc key ((uniqueVersions key
        (combinedVersions direct mirror official useMirror)).map Prod.snd) := by
  have hie : (sortVersionsDesc key ((uniqueVersions key
      (combinedVersions direct mirror official useMirror)).map Prod.snd)).isEmpty = false := by
    cases hh : sortVersionsDesc key ((uniqueVersions key
        (combinedVersions direct mirror official useMirror)).map Prod.snd) with
    | nil => exact absurd hh h
    | cons a l => rfl
  simp [get_available_versions, hie]

/-- C5: the resolver's output never contains two descriptors with the same
version key; each returned descriptor (when any strategy yielded anything)
is the *first* descriptor bearing its key in the priority-ordered strategy
output, and when the direct listing reports anything at all every returned
descriptor comes from the direct listing — the later-queried strategies'
descriptors are discarded. -/
theorem resolver_no_duplicate_versions (key : α → String)
    (direct mirror official : List α) (useMirror : Bool)
    (cache : List (String × α))
    (hck : (cache.map Prod.fst).Nodup)
    (hcv : ∀ p ∈ cache, key p.2 = p.1) :
    ((get_available_versions key direct mirror official useMirror cache).1.map key).Nodup ∧
    (∀ v ∈ (get_available_versions key direct mirror official useMirror cache).1,
       combinedVersions direct mirror official useMirror ≠ [] →
       (combinedVersions direct mirror official useMirror).find?
         (fun x => key x == key v) = some v) ∧
    (direct ≠ [] →
      ∀ v ∈ (get_available_versions key direct mirror official useMirror cache).1,
        v ∈ direct) := by
  by_cases hA : combinedVersions direct mirror official useMirror = []
  · have hres : (get_available_versions key direct mirror official useMirror cache).1 =
        cache.map Prod.snd := by
      cases cache with
      | nil =>
        simp [get_available_versions, hA, uniqueVersions, sortVersionsDesc, pySort]
      | cons p cs =>
        simp [get_available_versions, hA, uniqueVersions, sortVersionsDesc, pySort]
    refine ⟨?_, ?_, ?_⟩
    · rw [hres, List.map_map]
      have : cache.map (key ∘ Prod.snd) = cache.map Prod.fst :=
        List.map_congr_left (fun p hp => hcv p hp)
      rw [this]
      exact hck
    · intro v _ hAne
      exact absurd hA hAne
    · intro hd
      have hAd := combinedVersions_of_direct_ne_nil direct mirror official useMirror hd
      rw [hA] at hAd
      exact absurd hAd.symm hd
  · have hUne : uniqueVersions key (combinedVersions direct mirror official useMirror) ≠ [] := by
      cases hAh : combinedVersions direct mirror official useMirror with
      | nil => exact absurd hAh hA
      | cons a l => exact uniqueVersions_ne_nil key a l
    have hVperm : (sortVersionsDesc key ((uniqueVersions key
        (combinedVersions direct mirror official useMirror)).map Prod.snd)).Perm
        ((uniqueVersions key (combinedVersions direct mirror official useMirror)).map
          Prod.snd) := pySort_perm _ _
    have hVne : sortVersionsDesc key ((uniqueVersions key
        (combinedVersions direct mirror official useMirror)).map Prod.snd) ≠ [] := by
      intro hnil
      rw [hnil] at hVperm
      have := List.map_eq_nil_iff.mp (hVperm.nil_eq).symm
      exact hUne this
    have hres := resolver_result_of_ne_nil key direct mirror official useMirror cache hVne
    refine ⟨?_, ?_, ?_⟩
    · rw [hres]
      have h1 := hVperm.map key
      have h2 : ((uniqueVersions key
          (combinedVersions direct mirror official useMirror)).map Prod.snd).map key =
          (uniqueVersions key (combinedVersions direct mirror official useMirror)).map
            Prod.fst := by
        rw [List.map_map]
        exact List.map_congr_left
          (fun p hp => (uniqueVersions_first_wins key _ p hp).1.symm)
      rw [h2] at h1
      exact h1.nodup_iff.mpr (uniqueVersions_nodup key _)
    · intro v hv _
      rw [hres] at hv
      obtain ⟨p, hpU, hpv⟩ := List.mem_map.mp (hVperm.mem_iff.mp hv)
      have hfw := uniqueVersions_first_wins key _ p hpU
      rw [← hpv, ← hfw.1]
      exact hfw.2
    · intro hd v hv
      have hAd := combinedVersions_of_direct_ne_nil direct mirror official useMirror hd
      rw [hres] at hv
      obtain ⟨p, hpU, hpv⟩ := List.mem_map.mp (hVperm.mem_iff.mp hv)
      have hfw := uniqueVersions_first_wins key _ p hpU
      have hmem := List.mem_of_find?_eq_some hfw.2
      rw [hAd] at hmem
      exact hpv ▸ hmem

/-- C5 witness: the spec scenario — version `"4.1.0"` reported both by the
direct listing and by the mirror with different URLs; the resolver keeps
only the direct-listing descriptor. -/
theorem resolver_no_duplicate_versions_witness :
    ((([] : List (String × String × String)).map Prod.fst).Nodup ∧
      (∀ p ∈ ([] : List (String × String × String)),
        (fun v : String × String => v.1) p.2 = p.1)) ∧
    (((get_available_versions (fun v : String × String => v.1)
        [("4.1.0", "direct-url")] [("4.1.0", "mirror-url")] [] true []).1.map
          (fun v : String × String => v.1)).Nodup ∧
      (∀ v ∈ (get_available_versions (fun v : String × String => v.1)
          [("4.1.0", "direct-url")] [("4.1.0", "mirror-url")] [] true []).1,
        combinedVersions [("4.1.0", "direct-url")] [("4.1.0", "mirror-url")]
          ([] : List (String × String)) true ≠ [] →
        (combinedVersions [("4.1.0", "direct-url")] [("4.1.0", "mirror-url")]
          ([] : List (String × String)) true).find?
            (fun x => x.1 == v.1) = some v) ∧
      ([("4.1.0", "direct-url")] ≠ ([] : List (String × String)) →
        ∀ v ∈ (get_available_versions (fun v : String × String => v.1)
            [("4.1.0", "direct-url")] [("4.1.0", "mirror-url")] [] true []).1,
          v ∈ [("4.1.0", "direct-url")])) ∧
    (get_available_versions (fun v : String × String => v.1)
        [("4.1.0", "direct-url")] [("4.1.0", "mirror-url")] [] true []).1 =
      [("4.1.0", "direct-url")] :=
  ⟨⟨by decide, by decide⟩,
    resolver_no_duplicate_versions (fun v : String × String => v.1)
      [("4.1.0", "direct-url")] [("4.1.0", "mirror-url")] [] true []
      (by decide) (by decide),
    by decide⟩

/-- C6 counterexample: with every strategy empty and a cache whose values
sit in ascending version order, the cache-as-last-resort path of
`get_available_versions` returns the cache values exactly as stored —
an ascending list — so the returned list is *not* ordered descending by
parsed numeric version tuple, refuting the claim for the fallback path. -/
theorem resolver_fallback_unsorted :
    (get_available_versions (fun v : String × String => v.1) [] [] [] true
        [("4.0.0", ("4.0.0", "url-a")), ("4.1.0", ("4.1.0", "url-b"))]).1 =
      [("4.0.0", "url-a"), ("4.1.0", "url-b")] ∧
    ¬ ((get_available_versions (fun v : String × String => v.1) [] [] [] true
        [("4.0.0", ("4.0.0", "url-a")), ("4.1.0", ("4.1.0", "url-b"))]).1.Pairwise
        (fun x y => listLt (parseVersion x.1) (parseVersion y.1) = false)) :=
  ⟨by decide, by decide⟩

theorem verLe_total (a b : List Nat) :
    (!(listLt a b)) = true ∨ (!(listLt b a)) = true := by
  rcases listLt_trichotomy a b with h | h | h
  · right; simp [listLt_asymm _ _ h]
  · left; simp [listLt_asymm _ _ h]
  · left; simp [h, listLt_irrefl]

theorem verLe_trans (a b c : List Nat)
    (hab : (!(listLt a b)) = true) (hbc : (!(listLt b c)) = true) :
    (!(listLt a c)) = true := by
  simp only [Bool.not_eq_true'] at hab hbc ⊢
  by_contra hc
  have hac : listLt a c = true := by
    cases h : listLt a c
    · exact absurd h hc
    · rfl
  rcases listLt_trichotomy a b with h | h | h
  · rw [h] at hab; exact absurd hab (by simp)
  · have := listLt_trans b a c h hac
    rw [this] at hbc
    exact absurd hbc (by simp)
  · rw [h] at hac
    rw [hac] at hbc
    exact absurd hbc (by simp)

/-- C6 (amended): every list produced by the scrape-dedup-sort path is
ordered descending by the parsed numeric version tuple, and whenever that
list is non-empty it is exactly what `get_available_versions` returns.
(The cache-fallback path instead returns the cached values in cache order,
which need not be sorted.) -/
theorem resolver_sorted_desc (key : α → String) (direct mirror official : List α)
    (useMirror : Bool) (cache : List (String × α))
    (hne : sortVersionsDesc key ((uniqueVersions key
        (combinedVersions direct mirror official useMirror)).map Prod.snd) ≠ []) :
    (get_available_versions key direct mirror official useMirror cache).1.Pairwise
      (fun x y => listLt (parseVersion (key x)) (parseVersion (key y)) = false) ∧
    (get_available_versions key direct mirror official useMirror cache).1 =
      sortVersionsDesc key ((uniqueVersions key
        (combinedVersions direct mirror official useMirror)).map Prod.snd) := by
  have hres := resolver_result_of_ne_nil key direct mirror official useMirror cache hne
  refine ⟨?_, hres⟩
  rw [hres]
  have hpw := pySort_pairwise
    (fun x y => !(listLt (parseVersion (key x)) (parseVersion (key y))))
    (fun x y => verLe_total (parseVersion (key x)) (parseVersion (key y)))
    (fun x y z => verLe_trans (parseVersion (key x)) (parseVersion (key y))
      (parseVersion (key z)))
    ((uniqueVersions key (combinedVersions direct mirror official useMirror)).map Prod.snd)
  exact hpw.imp (fun h => by simpa using h)

/-- C6 amended witness: two direct-listing versions given in ascending
order come back sorted descending. -/
theorem resolver_sorted_desc_witness :
    (sortVersionsDesc (fun v : String × String => v.1)
        ((uniqueVersions (fun v : String × String => v.1)
          (combinedVersions [("4.0.0", "url-a"), ("4.1.0", "url-b")]
            ([] : List (String × String)) [] true)).map Prod.snd) ≠ []) ∧
    ((get_available_versions (fun v : String × String => v.1)
        [("4.0.0", "url-a"), ("4.1.0", "url-b")] [] [] true []).1.Pairwise
        (fun x y => listLt (parseVersion x.1) (parseVersion y.1) = false) ∧
      (get_available_versions (fun v : String × String => v.1)
          [("4.0.0", "url-a"), ("4.1.0", "url-b")] [] [] true []).1 =
        sortVersionsDesc (fun v : String × String => v.1)
          ((uniqueVersions (fun v : String × String => v.1)
            (combinedVersions [("4.0.0", "url-a"), ("4.1.0", "url-b")]
              ([] : List (String × String)) [] true)).map Prod.snd)) ∧
    (get_available_versions (fun v : String × String => v.1)
        [("4.0.0", "url-a"), ("4.1.0", "url-b")] [] [] true []).1 =
      [("4.1.0", "url-b"), ("4.0.0", "url-a")] :=
  ⟨by decide,
    resolver_sorted_desc (fun v : String × String => v.1)
      [("4.0.0", "url-a"), ("4.1.0", "url-b")] [] [] true [] (by decide),
    by decide⟩

end Resolver

/-! ## `DownloadManager.extract_blender` root selection (claim C9)

From `download_manager.py` lines 1320-1343:

```python
root_dirs = set()
for name in zip_ref.namelist():
    parts = name.split('/')
    if len(parts) > 1:
        root_dirs.add(parts[0])
if len(root_dirs) != 1:
    blender_dirname = os.path.basename(zip_path).replace('.zip', '')
    ...extract into extract_dir/blender_dirname...
else:
    ...extract into extract_dir, root = list(root_dirs)[0]...
```
-/

inductive ExtractRoot where
  | single (root : String)
  | synthetic (dirName : String)
deriving DecidableEq

/-- `parts = name.split('/'); if len(parts) > 1: root_dirs.add(parts[0])`:
the first segment of an entry path, but only when the path has more than
one segment. -/
def firstSegmentMulti (name : String) : Option String :=
  match splitOnChar '/' name.data with
  | p :: _ :: _ => some (String.mk p)
  | _ => none

/-- The `root_dirs` set (sets are modelled as deduplicated lists; only the
cardinality and the sole element of a singleton are ever used). -/
def rootDirs (names : List String) : List String :=
  (names.filterMap firstSegmentMulti).dedup

/-- Python's `str.replace('.zip', '')`: remove every occurrence. -/
def removeZip : List Char → List Char
  | '.' :: 'z' :: 'i' :: 'p' :: rest => removeZip rest
  | c :: rest => c :: removeZip rest
  | [] => []

/-- `os.path.basename(zip_path).replace('.zip', '')`, applied to the
archive's file name. -/
def blenderDirname (zipName : String) : String := String.mk (removeZip zipName.data)

/-- The extraction-root decision of `extract_blender`. -/
def extract_blender_root (zipName : String) (names : List String) : ExtractRoot :=
  if (rootDirs names).length ≠ 1 then ExtractRoot.synthetic (blenderDirname zipName)
  else ExtractRoot.single ((rootDirs names).headD "")

/-- First segment of *any* entry path (the spec's reading, which inspects
all entries, not only multi-segment ones). -/
def firstSegment (name : String) : String :=
  match splitOnChar '/' name.data with
  | p :: _ => String.mk p
  | [] => ""

/-- The claim's condition: every entry shares exactly one common first
path segment. -/
def sharesOneRoot (names : List String) : Bool :=
  ((names.map firstSegment).dedup).length == 1

/-- C9 counterexample: an archive `blender.zip` with entries `a/x` and `b`.
The entries do *not* all share one common first path segment (`a` vs `b`),
so the claim dictates the synthetic-directory branch; the code nevertheless
takes the single-root branch with root `a`, because `root_dirs` is collected
only from entries whose path contains a separator. -/
theorem extract_root_counterexample :
    extract_blender_root "blender.zip" ["a/x", "b"] = ExtractRoot.single "a" ∧
    sharesOneRoot ["a/x", "b"] = false ∧
    extract_blender_root "blender.zip" ["a/x", "b"] ≠
      ExtractRoot.synthetic (blenderDirname "blender.zip") :=
  ⟨by decide, by decide, by decide⟩

theorem dedup_eq_singleton_of_all_eq [DecidableEq β] :
    ∀ (l : List β) (r : β), l ≠ [] → (∀ x ∈ l, x = r) → l.dedup = [r] := by
  intro l
  induction l with
  | nil => intro r h _; exact absurd rfl h
  | cons a l ih =>
    intro r _ hall
    have ha : a = r := hall a (List.mem_cons_self a l)
    cases l with
    | nil =>
      rw [List.dedup_cons_of_not_mem (List.not_mem_nil a), List.dedup_nil, ha]
    | cons b l' =>
      have hb : b = r := hall b (by simp)
      have hmem : a ∈ b :: l' := by rw [ha, ← hb]; exact List.mem_cons_self b l'
      rw [List.dedup_cons_of_mem hmem]
      exact ih r (by simp) (fun x hx => hall x (List.mem_cons_of_mem a hx))

/-- C9 (amended): the root set is computed only from entries whose path has
more than one segment.  The code picks the single-root branch with root `r`
exactly when some entry is multi-segment and every multi-segment entry has
first segment `r`; in every other case (all entries top-level, or two
multi-segment entries with distinct first segments) it uses a synthetic
directory named after the archive with `.zip` removed. -/
theorem extract_root_characterization (zipName : String) (names : List String) :
    (∀ r, extract_blender_root zipName names = ExtractRoot.single r ↔
      (names.filterMap firstSegmentMulti ≠ [] ∧
        ∀ s ∈ names.filterMap firstSegmentMulti, s = r)) ∧
    (names.filterMap firstSegmentMulti = [] →
      extract_blender_root zipName names =
        ExtractRoot.synthetic (blenderDirname zipName)) ∧
    (∀ s t, s ∈ names.filterMap firstSegmentMulti →
      t ∈ names.filterMap firstSegmentMulti → s ≠ t →
      extract_blender_root zipName names =
        ExtractRoot.synthetic (blenderDirname zipName)) := by
  refine ⟨?_, ?_, ?_⟩
  · intro r
    constructor
    · intro h
      unfold extract_blender_root at h
      by_cases hlen : (rootDirs names).length ≠ 1
      · rw [if_pos hlen] at h
        exact absurd h (by simp)
      · rw [if_neg hlen] at h
        push_neg at hlen
        have hd : ∃ d, (names.filterMap firstSegmentMulti).dedup = [d] := by
          cases hdd : (names.filterMap firstSegmentMulti).dedup with
          | nil => rw [rootDirs, hdd] at hlen; simp at hlen
          | cons d rest =>
            cases rest with
            | nil => exact ⟨d, rfl⟩
            | cons e rest' => rw [rootDirs, hdd] at hlen; simp at hlen
        obtain ⟨d, hd⟩ := hd
        have hdr : d = r := by
          rw [rootDirs, hd] at h
          simpa [ExtractRoot.single.injEq] using h
        subst hdr
        constructor
        · intro hnil
          rw [hnil] at hd
          simp at hd
        · intro s hs
          have : s ∈ (names.filterMap firstSegmentMulti).dedup :=
            List.mem_dedup.mpr hs
          rw [hd] at this
          simpa using this
    · rintro ⟨hne, hall⟩
      have hd : (names.filterMap firstSegmentMulti).dedup = [r] :=
        dedup_eq_singleton_of_all_eq _ r hne hall
      unfold extract_blender_root rootDirs
      rw [hd]
      simp
  · intro h
    unfold extract_blender_root rootDirs
    rw [h]
    simp
  · intro s t hs ht hst
    have hsd : s ∈ (names.filterMap firstSegmentMulti).dedup := List.mem_dedup.mpr hs
    have htd : t ∈ (names.filterMap firstSegmentMulti).dedup := List.mem_dedup.mpr ht
    have hlen : (rootDirs names).length ≠ 1 := by
      intro hlen
      rw [rootDirs] at hlen
      cases hdd : (names.filterMap firstSegmentMulti).dedup with
      | nil => rw [hdd] at hsd; simp at hsd
      | cons d rest =>
        cases rest with
        | nil =>
          rw [hdd] at hsd htd
          simp only [List.mem_singleton] at hsd htd
          exact hst (hsd.trans htd.symm)
        | cons e rest' => rw [hdd] at hlen; simp at hlen
    unfold extract_blender_root
    rw [if_pos hlen]

/-- C9 amended witness: entries `blender-4.1.0/a` and `blender-4.1.0/b` of
archive `blender-4.1.0.zip` all have first segment `blender-4.1.0`, and the
characterization applies: the single-root branch is taken. -/
theorem extract_root_characterization_witness :
    ((∀ r, extract_blender_root "blender-4.1.0.zip" ["blender-4.1.0/a", "blender-4.1.0/b"] =
        ExtractRoot.single r ↔
      (["blender-4.1.0/a", "blender-4.1.0/b"].filterMap firstSegmentMulti ≠ [] ∧
        ∀ s ∈ ["blender-4.1.0/a", "blender-4.1.0/b"].filterMap firstSegmentMulti, s = r)) ∧
      (["blender-4.1.0/a", "blender-4.1.0/b"].filterMap firstSegmentMulti = [] →
        extract_blender_root "blender-4.1.0.zip" ["blender-4.1.0/a", "blender-4.1.0/b"] =
          ExtractRoot.synthetic (blenderDirname "blender-4.1.0.zip")) ∧
      (∀ s t, s ∈ ["blender-4.1.0/a", "blender-4.1.0/b"].filterMap firstSegmentMulti →
        t ∈ ["blender-4.1.0/a", "blender-4.1.0/b"].filterMap firstSegmentMulti → s ≠ t →
        extract_blender_root "blender-4.1.0.zip" ["blender-4.1.0/a", "blender-4.1.0/b"] =
          ExtractRoot.synthetic (blenderDirname "blender-4.1.0.zip"))) ∧
    extract_blender_root "blender-4.1.0.zip" ["blender-4.1.0/a", "blender-4.1.0/b"] =
      ExtractRoot.single "blender-4.1.0" :=
  ⟨extract_root_characterization "blender-4.1.0.zip"
      ["blender-4.1.0/a", "blender-4.1.0/b"],
    by decide⟩

/-! ## `BlenderVersionInfo.to_dict` / `from_dict` (claim C10)

From `download_manager.py` lines 336-357.  Each of the six fields holds a
Python value that is either a string or `None`, modelled as
`Option String`; a Python dict read with `.get` returns the stored value
when the key is present and `None` otherwise. -/

structure BlenderVersionInfo where
  version : Option String
  build_date : Option String
  url : Option String
  size : Option String
  description : Option String
  changes : Option String
deriving DecidableEq

def dictGet (d : List (String × Option String)) (k : String) : Option String :=
  (d.lookup k).getD none

def BlenderVersionInfo.to_dict (v : BlenderVersionInfo) :
    List (String × Option String) :=
  [("version", v.version), ("build_date", v.build_date), ("url", v.url),
   ("size", v.size), ("description", v.description), ("changes", v.changes)]

def BlenderVersionInfo.from_dict (d : List (String × Option String)) :
    BlenderVersionInfo :=
  { version := dictGet d "version"
    build_date := dictGet d "build_date"
    url := dictGet d "url"
    size := dictGet d "size"
    description := dictGet d "description"
    changes := dictGet d "changes" }

/-- C10: the serialisation round trip `from_dict (to_dict v)` restores all
six fields of every `BlenderVersionInfo` exactly, so a descriptor persisted
to the JSON cache and reloaded is preserved. -/
theorem from_dict_to_dict (v : BlenderVersionInfo) :
    BlenderVersionInfo.from_dict v.to_dict = v := rfl

end VortexLauncher
